import Mathlib

/-!
Verification of the decimal arithmetic kernel (`src/lib.rs`, `src/error.rs`).

The code is embedded shallowly:

* `BigDecimal` is the exact pair (unscaled integer, scale) used by the
  `bigdecimal` crate: the represented value is `unscaled * 10 ^ (-scale)`.
* The floating-point Newton iteration inside `root` is not modelled; `root`'s
  embedding covers the argument guards and the `n = 1` fast path, and marks the
  entry into the iteration by a dedicated constructor.
* The shared, lazily grown power-of-ten cache is modelled by explicit state
  passing: a function that in Rust reads and extends the `Mutex<Vec<BigInt>>`
  here takes the current cache contents and returns the new contents.
* Machine integers (`i32`, `i64`, `u32`, `usize`) are modelled as `Int`/`Nat`;
  where the source masks an `i64` with `LONG_MASK` (the low 32 bits), the
  embedding reduces mod `2 ^ 32`, which is what the mask computes on a
  two's-complement integer.
-/

namespace BigDecimalMath

/-- The exact decimal representation used by the `bigdecimal` crate: the value
is `intVal * 10 ^ (-scale)`.  `as_bigint_and_exponent` returns exactly this
pair. -/
structure BigDecimal where
  intVal : Int
  scale : Int
deriving DecidableEq, Repr

/-- The numeric value of a `BigDecimal`, as a rational. -/
def BigDecimal.val (x : BigDecimal) : ℚ :=
  (x.intVal : ℚ) * 10 ^ (-x.scale)

/-- `error.rs`: the single error variant `ArithmeticError(String)`. -/
inductive BigDecimalMathError where
  | ArithmeticError (msg : String)
deriving DecidableEq

/-- Outcome of `root`.  The floating-point seed / Newton iteration that follows
the guards is not modelled; reaching it is recorded by `iterate`. -/
inductive RootResult where
  | err (e : BigDecimalMathError)
  | ok (x : BigDecimal)
  | iterate

/-- Whether a `RootResult` is the error case. -/
def RootResult.isErr : RootResult → Bool
  | .err _ => true
  | _ => false

/-- Embedding of `root(n, x)` up to the floating-point work.  The source first
tests `x < BigDecimal::zero()` (the value comparison, which holds exactly when
the unscaled integer is negative, since `10 ^ (-scale) > 0`), then `n <= 0`,
then the `n == 1` fast path returning `x` itself; only after all three does it
start the floating-point seed computation (modelled as `iterate`).  The
formatted argument interpolated into each message is elided. -/
def root (n : Int) (x : BigDecimal) : RootResult :=
  if x.intVal < 0 then
    .err (.ArithmeticError ("negative argument of root"))
  else if n ≤ 0 then
    .err (.ArithmeticError ("negative power of root"))
  else if n = 1 then
    .ok x
  else
    .iterate

/-- Embedding of `pow(x, n)`: if `n` is outside `0..=999999999` the call fails,
otherwise the result is `BigDecimal::new(bigint.pow(n as u32), scale * n as i64)`
— unscaled part `intVal ^ n`, scale `scale * n`, no rounding. -/
def pow (x : BigDecimal) (n : Int) : Except BigDecimalMathError BigDecimal :=
  if ¬ (0 ≤ n ∧ n ≤ 999999999) then
    .error (.ArithmeticError ("Invalid power operation"))
  else
    .ok ⟨x.intVal ^ n.toNat, x.scale * n⟩

/-- Character count of the base-10 rendering of an integer, which is what
`bigint.to_string().chars().count()` computes: the decimal digit count of the
magnitude (`"0"` is one character, so the count is at least 1), plus one for
the leading `-` sign when the integer is negative. -/
def intStringLen (n : Int) : ℕ :=
  (if n < 0 then 1 else 0) + max 1 (Nat.digits 10 n.natAbs).length

/-- Embedding of `get_prec(x)`: the character count of the unscaled integer's
decimal string. -/
def get_prec (x : BigDecimal) : ℕ :=
  intStringLen x.intVal

/-- The spec's definition of precision ("decimal digit count of `|unscaled|`,
minimum 1, even for zero"), written from the spec's words for comparison with
`get_prec`. -/
def specPrecision (x : BigDecimal) : ℕ :=
  max 1 (Nat.digits 10 x.intVal.natAbs).length

/-- `LONG_TEN_POWERS_TABLE`, copied entry for entry from the source (including
the entry at index 17, whose source comment says `10^17`). -/
def LONG_TEN_POWERS_TABLE : List Int :=
  [1,
   10,
   100,
   1000,
   10000,
   100000,
   1000000,
   10000000,
   100000000,
   1000000000,
   10000000000,
   100000000000,
   1000000000000,
   10000000000000,
   100000000000000,
   1000000000000000,
   10000000000000000,
   10000000000000000,
   1000000000000000000]

/-- The initial contents of `BIG_TEN_POWERS_TABLE` (the `Lazy<Mutex<Vec<BigInt>>>`
initializer), copied entry for entry from the source. -/
def BIG_TEN_POWERS_TABLE : List Int :=
  [1,
   10,
   100,
   1000,
   10000,
   100000,
   1000000,
   10000000,
   100000000,
   1000000000,
   10000000000,
   100000000000,
   1000000000000,
   10000000000000,
   100000000000000,
   1000000000000000,
   10000000000000000,
   100000000000000000,
   1000000000000000000]

/-- The shared-cache invariant: the vector is nonempty and entry `i` holds
`10 ^ i`. -/
def cacheInv (s : List Int) : Prop :=
  1 ≤ s.length ∧ ∀ i, i < s.length → s[i]! = 10 ^ i

instance (s : List Int) : Decidable (cacheInv s) := by
  unfold cacheInv; infer_instance

/-- The doubling loop of `big_ten_to_the`:
`while new_len <= n { new_len <<= 1 }`, started from an initial `new_len`.
The `len = 0` guard makes the function total; it is unreachable in the source,
where the cache always holds at least the 19 initial entries. -/
def growTarget (len n : ℕ) : ℕ :=
  if len = 0 then 0
  else if len ≤ n then growTarget (2 * len) n
  else len
termination_by n + 1 - len
decreasing_by omega

/-- The fill loop of `big_ten_to_the`: while the vector is shorter than the
target length, append the last entry times ten
(`pows.insert(i, pows.get(i - 1) * 10)` with `i` equal to the current
length). -/
def fillPows (pows : List Int) (target : ℕ) : List Int :=
  if pows.length < target then
    fillPows (pows ++ [pows[pows.length - 1]! * 10]) target
  else pows
termination_by target - pows.length
decreasing_by simp; omega

/-- Embedding of `big_ten_to_the(n)` with the shared cache passed explicitly:
`if n < 0` return zero and leave the cache alone; otherwise, when the current
length does not cover `n`, double the target length until it exceeds `n`
(starting from `current_len << 1`) and fill every missing entry with the
previous entry times ten; finally return (a clone of) entry `n`. -/
def big_ten_to_the (n : Int) (pows : List Int) : Int × List Int :=
  if n < 0 then (0, pows)
  else if (pows.length : Int) ≤ n then
    ((fillPows pows (growTarget (2 * pows.length) n.toNat))[n.toNat]!,
     fillPows pows (growTarget (2 * pows.length) n.toNat))
  else
    (pows[n.toNat]!, pows)

/-- Modelled from the spec: `divide_and_round_i64` is `todo!()` in the source.
Spec §4.4 prescribes division by the given power of ten rounded to the nearest
integer, ties away from zero: add half the divisor to the magnitude, divide,
and restore the sign. -/
def divide_and_round_i64 (int_val : Int) (pw : Int) : Int :=
  int_val.sign * (((int_val.natAbs + pw.natAbs / 2) / pw.natAbs : ℕ) : Int)

/-- Modelled from the spec: `divide_and_round_bigint` is `todo!()` in the
source.  Same round-half-away-from-zero contract as `divide_and_round_i64`,
over arbitrary-width integers. -/
def divide_and_round_bigint (dividend : Int) (divisor : Int) : Int :=
  dividend.sign * (((dividend.natAbs + divisor.natAbs / 2) / divisor.natAbs : ℕ) : Int)

/-- Embedding of `divide_and_round_by_ten_pow(int_val, ten_pow)`.  The source
tests `(ten_pow as usize) < LONG_TEN_POWERS_TABLE.len()`; the `usize` cast
sends negative values far above the table length, so the test holds exactly
for `0 ≤ ten_pow < 19`.  The fast path divides by the table entry; the slow
path divides by `big_ten_to_the(ten_pow)` (which touches the shared cache,
threaded through here). -/
def divide_and_round_by_ten_pow (int_val : Int) (ten_pow : Int) (pows : List Int) :
    Int × List Int :=
  if 0 ≤ ten_pow ∧ ten_pow < (LONG_TEN_POWERS_TABLE.length : Int) then
    (divide_and_round_i64 int_val (LONG_TEN_POWERS_TABLE[ten_pow.toNat]!), pows)
  else
    (divide_and_round_bigint int_val (big_ten_to_the ten_pow pows).1,
     (big_ten_to_the ten_pow pows).2)

/-- Value of a big-endian list of base-`2 ^ 32` digits. -/
def beVal : List ℕ → ℕ
  | [] => 0
  | d :: t => d * (2 ^ 32) ^ t.length + beVal t

/-- Three-way comparison result encoded the way the source encodes it:
`-1` / `0` / `1`. -/
def cmp3 (x y : Int) : Int :=
  if x < y then -1 else if x = y then 0 else 1

/-- The main loop of `compare_half`, walking the big-endian `u32` digit vectors
of `a` (first list) and of `b` from `b_start` (second list) with the running
`carry : i64`.  Per step the source computes
`hb = ((bv as i64 >> 1) + carry) & LONG_MASK` (masking an `i64` keeps its low
32 bits, i.e. reduces mod `2 ^ 32`) and
`v = a_val[i] as i64 & LONG_MASK` (a zero-extended `u32`, so the mask is the
identity), compares, and carries `(bv & 1) << 31` into the next digit.  After
the loop the source returns `0` when the final carry is zero, else `-1`.  The
second match arm is unreachable: the source indexes `b_val` unconditionally,
and the pre-loop length checks keep the index in bounds. -/
def compareHalfLoop : List ℕ → List ℕ → Int → Int
  | [], _, carry => if carry = 0 then 0 else -1
  | _ :: _, [], _ => 0
  | v :: arest, bv :: brest, carry =>
    if ((v : Int)) ≠ (((bv >>> 1 : ℕ) : Int) + carry) % 2 ^ 32 then
      (if ((v : Int)) < (((bv >>> 1 : ℕ) : Int) + carry) % 2 ^ 32 then -1 else 1)
    else
      compareHalfLoop arest brest (((bv &&& 1) <<< 31 : ℕ) : Int)

/-- The big-endian base-`2 ^ 32` digit vector of `|a|`: the source's
`a.to_u32_digits().1` (little-endian magnitude digits, no leading zeros, empty
for zero) followed by `.reverse()`. -/
def toBeDigits (a : Int) : List ℕ :=
  (Nat.digits (2 ^ 32) a.natAbs).reverse

/-- Embedding of `compare_half(a, b)`.  The source's mutable `b_start`/`carry`
preparation is rendered by branching: when the digit counts differ by one and
`b`'s leading digit is `1`, the loop starts past that digit with carry
`-0x80000000`; the remaining branches return early exactly as the source
does. -/
def compare_half (a b : Int) : Int :=
  if (toBeDigits a).length ≤ 0 then
    (if (toBeDigits b).length ≤ 0 then 0 else -1)
  else if (toBeDigits a).length > (toBeDigits b).length then 1
  else if (toBeDigits a).length < (toBeDigits b).length - 1 then -1
  else if (toBeDigits a).length ≠ (toBeDigits b).length then
    (if (toBeDigits b).headD 0 = 1 then
      compareHalfLoop (toBeDigits a) ((toBeDigits b).drop 1) (-(2 ^ 31))
     else -1)
  else
    compareHalfLoop (toBeDigits a) (toBeDigits b) 0



/-! ### Cache lemmas (`growTarget`, `fillPows`, `big_ten_to_the`) -/

theorem getBang_eq (l : List Int) (i : ℕ) (h : i < l.length) : l[i]! = l[i] :=
  getElem!_pos l i h

theorem growTarget_spec (len n : ℕ) :
    len ≠ 0 → n < growTarget len n ∧ len ≤ growTarget len n := by
  induction len, n using growTarget.induct with
  | case1 n =>
    intro h; exact absurd rfl h
  | case2 len n h0 hle ih =>
    intro _
    rw [growTarget, if_neg h0, if_pos hle]
    have h2 := ih (by omega)
    omega
  | case3 len n h0 hnle =>
    intro _
    rw [growTarget, if_neg h0, if_neg hnle]
    omega

theorem fillPows_append (pows : List Int) (target : ℕ) :
    ∃ q, fillPows pows target = pows ++ q := by
  induction pows, target using fillPows.induct with
  | case1 pows target hlt ih =>
    obtain ⟨q, hq⟩ := ih
    refine ⟨pows[pows.length - 1]! * 10 :: q, ?_⟩
    rw [fillPows, if_pos hlt, hq, List.append_assoc]
    rfl
  | case2 pows target hnlt =>
    exact ⟨[], by rw [fillPows, if_neg hnlt, List.append_nil]⟩

theorem fillPows_length (pows : List Int) (target : ℕ) :
    (fillPows pows target).length = max pows.length target := by
  induction pows, target using fillPows.induct with
  | case1 pows target hlt ih =>
    rw [fillPows, if_pos hlt, ih]
    simp
    omega
  | case2 pows target hnlt =>
    rw [fillPows, if_neg hnlt]
    omega

theorem fillPows_inv (pows : List Int) (target : ℕ) :
    1 ≤ pows.length → (∀ i, i < pows.length → pows[i]! = 10 ^ i) →
    ∀ i, i < (fillPows pows target).length → (fillPows pows target)[i]! = 10 ^ i := by
  induction pows, target using fillPows.induct with
  | case1 pows target hlt ih =>
    intro h1 h2
    rw [fillPows, if_pos hlt]
    apply ih
    · simp only [List.length_append]; omega
    · intro i hi
      simp only [List.length_append, List.length_cons, List.length_nil] at hi
      have hib : i < (pows ++ [pows[pows.length - 1]! * 10]).length := by
        simp only [List.length_append, List.length_cons, List.length_nil]; omega
      rw [getBang_eq _ _ hib]
      rcases Nat.lt_or_ge i pows.length with hlt2 | hge
      · rw [List.getElem_append_left hlt2]
        have h3 := h2 i hlt2
        rw [getBang_eq _ _ hlt2] at h3
        exact h3
      · have hieq : i = pows.length := by omega
        subst hieq
        rw [List.getElem_append_right (le_refl _)]
        simp only [Nat.sub_self, List.getElem_cons_zero]
        have hidx : pows.length - 1 < pows.length := by omega
        have h4 := h2 (pows.length - 1) hidx
        rw [getBang_eq _ _ hidx] at h4
        rw [getBang_eq _ _ hidx, h4, ← pow_succ]
        congr 1
        omega
  | case2 pows target hnlt =>
    intro h1 h2
    rw [fillPows, if_neg hnlt]
    exact h2


/-! ### Claim C1 — `root` rejects a negative base or a non-positive index -/

/-- Claim C1: for every decimal `x` and integer `n`, `root(n, x)` returns an
`ArithmeticError` whenever `x` is negative (unscaled integer below zero) or
`n ≤ 0`.  In the embedding the two guards precede the `n = 1` fast path and
the `iterate` marker of the floating-point work, so no computation is
performed in the error case. -/
theorem root_rejects_invalid_args (n : Int) (x : BigDecimal)
    (h : x.intVal < 0 ∨ n ≤ 0) : (root n x).isErr = true := by
  unfold root
  by_cases hx : x.intVal < 0
  · rw [if_pos hx]; rfl
  · have hn : n ≤ 0 := h.resolve_left hx
    rw [if_neg hx, if_pos hn]; rfl

/-- Witness for C1: both invalid-argument cases at concrete inputs. -/
theorem root_rejects_invalid_args_witness :
    (root (-1) ⟨1, 0⟩).isErr = true ∧ (root 4 ⟨-3, 1⟩).isErr = true :=
  ⟨root_rejects_invalid_args (-1) ⟨1, 0⟩ (Or.inr (by decide)),
   root_rejects_invalid_args 4 ⟨-3, 1⟩ (Or.inl (by decide))⟩

/-! ### Claim C2 — `root(1, x)` is the identity on non-negative `x` -/

/-- Claim C2: for every non-negative decimal `x`, `root(1, x)` returns
`Ok(x)` — the very same unscaled-integer/scale pair, hence no precision
loss. -/
theorem root_one_returns_x (x : BigDecimal) (h : 0 ≤ x.intVal) :
    root 1 x = .ok x := by
  unfold root
  rw [if_neg (not_lt.mpr h), if_neg (by omega : ¬(1 : Int) ≤ 0), if_pos rfl]

/-- Witness for C2: `root(1, 1.79) = 1.79`. -/
theorem root_one_returns_x_witness : root 1 ⟨179, 2⟩ = .ok ⟨179, 2⟩ :=
  root_one_returns_x ⟨179, 2⟩ (by decide)

/-! ### Claim C3 — `pow` is exact in range and fails out of range -/

/-- Claim C3: for `0 ≤ n ≤ 999_999_999`, `pow(x, n)` returns `Ok` of the exact
decimal with unscaled integer `unscaled(x) ^ n` and scale `scale(x) * n` — and
that pair's value is exactly `value(x) ^ n`, so no rounding happens; for every
`n` outside the range (negative included) it returns an `ArithmeticError`. -/
theorem pow_exact (x : BigDecimal) (n : Int) :
    (0 ≤ n ∧ n ≤ 999999999 →
      pow x n = .ok ⟨x.intVal ^ n.toNat, x.scale * n⟩ ∧
      BigDecimal.val ⟨x.intVal ^ n.toNat, x.scale * n⟩ = x.val ^ n.toNat) ∧
    (¬ (0 ≤ n ∧ n ≤ 999999999) →
      pow x n = .error (.ArithmeticError ("Invalid power operation"))) := by
  constructor
  · intro h
    refine ⟨by unfold pow; rw [if_neg (not_not.mpr h)], ?_⟩
    unfold BigDecimal.val
    push_cast
    rw [mul_pow]
    congr 1
    rw [← zpow_natCast ((10 : ℚ) ^ (-x.scale)) n.toNat, ← zpow_mul]
    congr 1
    rw [Int.toNat_of_nonneg h.1]
    ring
  · intro h
    unfold pow
    rw [if_pos h]

/-- Witness for C3: an in-range power computed exactly and an out-of-range
power rejected. -/
theorem pow_exact_witness :
    pow ⟨12, 1⟩ 2 = .ok ⟨144, 2⟩ ∧
    pow ⟨12, 1⟩ (-1) = .error (.ArithmeticError ("Invalid power operation")) := by
  constructor
  · have h := ((pow_exact ⟨12, 1⟩ 2).1 (by decide)).1
    norm_num at h
    exact h
  · exact (pow_exact ⟨12, 1⟩ (-1)).2 (by decide)

/-! ### Claim C6 — the fixed power table: entry 17 is wrong -/

/-- Claim C6 fails on the code: `LONG_TEN_POWERS_TABLE[17]` is
`10000000000000000 = 10 ^ 16`, a repeat of entry 16, not the `10 ^ 17` its own
source comment (`// 17 / 10^17`) announces. -/
theorem long_ten_powers_table_entry17 :
    LONG_TEN_POWERS_TABLE[17]! = 10 ^ 16 ∧ LONG_TEN_POWERS_TABLE[17]! ≠ 10 ^ 17 := by
  decide

/-! ### Claim C7 — `big_ten_to_the` returns `10 ^ k` -/

/-- Claim C7: for every `k ≥ 0` and any cache contents satisfying the
invariant (length at least one, entry `i` holding `10 ^ i`, as the initial
19-entry table does), `big_ten_to_the(k)` returns exactly `10 ^ k`, whether
`k` is already covered or the cache must grow by doubling-and-fill-by-ten. -/
theorem big_ten_to_the_returns_pow (k : Int) (s : List Int)
    (hk : 0 ≤ k) (hs : cacheInv s) : (big_ten_to_the k s).1 = 10 ^ k.toNat := by
  obtain ⟨h1, h2⟩ := hs
  unfold big_ten_to_the
  rw [if_neg (not_lt.mpr hk)]
  by_cases hle : (s.length : Int) ≤ k
  · rw [if_pos hle]
    have hT := growTarget_spec (2 * s.length) k.toNat (by omega)
    have hlen := fillPows_length s (growTarget (2 * s.length) k.toNat)
    have hidx : k.toNat < (fillPows s (growTarget (2 * s.length) k.toNat)).length := by
      rw [hlen]; omega
    exact fillPows_inv s (growTarget (2 * s.length) k.toNat) h1 h2 k.toNat hidx
  · rw [if_neg hle]
    exact h2 k.toNat (by omega)

/-- Witness for C7: growing the initial table up to index 20 yields
`10 ^ 20`. -/
theorem big_ten_to_the_returns_pow_witness :
    (big_ten_to_the 20 BIG_TEN_POWERS_TABLE).1 = 10 ^ 20 := by
  have h := big_ten_to_the_returns_pow 20 BIG_TEN_POWERS_TABLE (by decide) (by decide)
  simpa using h

/-! ### Claim C8 — `big_ten_to_the` preserves the cache invariant -/

/-- Claim C8: any call to `big_ten_to_the` (any `n`, negative included) on a
cache satisfying the invariant never shrinks it, never changes an existing
entry, and leaves every entry `i` holding exactly `10 ^ i`. -/
theorem big_ten_to_the_preserves_cache (n : Int) (s : List Int) (hs : cacheInv s) :
    s.length ≤ (big_ten_to_the n s).2.length ∧
    (∀ i, i < s.length → (big_ten_to_the n s).2[i]! = s[i]!) ∧
    cacheInv (big_ten_to_the n s).2 := by
  obtain ⟨h1, h2⟩ := hs
  unfold big_ten_to_the
  by_cases hneg : n < 0
  · rw [if_pos hneg]
    exact ⟨le_refl _, fun i _ => rfl, h1, h2⟩
  · rw [if_neg hneg]
    by_cases hle : (s.length : Int) ≤ n
    · rw [if_pos hle]
      dsimp only
      have hlen := fillPows_length s (growTarget (2 * s.length) n.toNat)
      obtain ⟨q, hq⟩ := fillPows_append s (growTarget (2 * s.length) n.toNat)
      refine ⟨by omega, ?_, by omega, fillPows_inv s _ h1 h2⟩
      intro i hi
      have hib : i < (fillPows s (growTarget (2 * s.length) n.toNat)).length := by
        omega
      rw [getBang_eq _ _ hib, getBang_eq _ _ hi]
      simp only [hq]
      exact List.getElem_append_left hi
    · rw [if_neg hle]
      exact ⟨le_refl _, fun i _ => rfl, h1, h2⟩

/-- Witness for C8: growing the initial table to cover index 20 keeps entry 5
and does not shrink the table. -/
theorem big_ten_to_the_preserves_cache_witness :
    BIG_TEN_POWERS_TABLE.length ≤ (big_ten_to_the 20 BIG_TEN_POWERS_TABLE).2.length ∧
    (big_ten_to_the 20 BIG_TEN_POWERS_TABLE).2[5]! = BIG_TEN_POWERS_TABLE[5]! := by
  have h := big_ten_to_the_preserves_cache 20 BIG_TEN_POWERS_TABLE (by decide)
  exact ⟨h.1, h.2.1 5 (by decide)⟩

/-! ### Claim C10 — negative exponents silently yield zero -/

/-- Claim C10: for every negative `n`, `big_ten_to_the(n)` returns the integer
`0` and leaves the cache untouched — no panic, no error; the embedding is
total, mirroring the source's early `return BigInt::zero()`. -/
theorem big_ten_to_the_neg_returns_zero (n : Int) (s : List Int) (h : n < 0) :
    big_ten_to_the n s = (0, s) := by
  unfold big_ten_to_the
  rw [if_pos h]

/-- Witness for C10: `big_ten_to_the(-1)` on the initial table. -/
theorem big_ten_to_the_neg_returns_zero_witness :
    big_ten_to_the (-1) BIG_TEN_POWERS_TABLE = (0, BIG_TEN_POWERS_TABLE) :=
  big_ten_to_the_neg_returns_zero (-1) BIG_TEN_POWERS_TABLE (by decide)

/-! ### Claim C4 — `divide_and_round_by_ten_pow` divides by the wrong power at 17 -/

/-- Claim C4 fails on the code at `ten_pow = 17`: the dispatch takes the fixed
64-bit fast path (17 is inside the table) but the table entry there is
`10 ^ 16`, so `10 ^ 17` divided "by `10 ^ 17`" comes out as `10`, while the
round-half-away-from-zero division by the true `10 ^ 17`
(`divide_and_round_bigint`, modelled from spec §4.4) gives `1`. -/
theorem divide_and_round_by_ten_pow_entry17 :
    (divide_and_round_by_ten_pow (10 ^ 17) 17 BIG_TEN_POWERS_TABLE).1 = 10 ∧
    divide_and_round_bigint (10 ^ 17) (10 ^ 17) = 1 := by
  decide

/-! ### Claim C9 — `get_prec` counts the sign character -/

/-- Claim C9 as stated is false on the code: `get_prec` measures
`to_string().chars().count()`, and for a negative unscaled integer the string
carries a leading `-`.  At `x = ⟨-5, 0⟩` the code yields 2 while the digit
count of `|-5|` is 1. -/
theorem get_prec_counts_sign : get_prec ⟨-5, 0⟩ = 2 ∧ specPrecision ⟨-5, 0⟩ = 1 := by
  have h5 : Nat.digits 10 ((-5 : Int).natAbs) = [5] := by
    rw [show ((-5 : Int).natAbs) = 5 from rfl,
      Nat.digits_def' (by norm_num : (1 : ℕ) < 10) (by norm_num : (0 : ℕ) < 5)]
    norm_num
  constructor
  · unfold get_prec intStringLen
    rw [h5]
    norm_num
  · unfold specPrecision
    rw [h5]
    simp

/-- Claim C9 amended: `get_prec(x)` equals the spec's precision (decimal digit
count of `|unscaled|`, minimum 1) when the unscaled integer is non-negative,
and that count plus one (for the `-` character) when it is negative. -/
theorem get_prec_amended (x : BigDecimal) :
    (0 ≤ x.intVal → get_prec x = specPrecision x) ∧
    (x.intVal < 0 → get_prec x = specPrecision x + 1) := by
  unfold get_prec intStringLen specPrecision
  constructor
  · intro h
    rw [if_neg (not_lt.mpr h)]
    omega
  · intro h
    rw [if_pos h]
    omega

/-- Witness for the amended C9, on both sign cases. -/
theorem get_prec_amended_witness :
    get_prec ⟨7, 0⟩ = specPrecision ⟨7, 0⟩ ∧
    get_prec ⟨-7, 0⟩ = specPrecision ⟨-7, 0⟩ + 1 :=
  ⟨(get_prec_amended ⟨7, 0⟩).1 (by decide), (get_prec_amended ⟨-7, 0⟩).2 (by decide)⟩

/-! ### Claim C5 — `compare_half` classifies a remainder against `b / 2` -/

theorem beVal_cons (d : ℕ) (t : List ℕ) :
    beVal (d :: t) = d * (2 ^ 32) ^ t.length + beVal t := rfl

theorem beVal_lt (l : List ℕ) (h : ∀ d ∈ l, d < 2 ^ 32) :
    beVal l < (2 ^ 32) ^ l.length := by
  induction l with
  | nil => simp [beVal]
  | cons d t ih =>
    have hd : d < 2 ^ 32 := h d (List.mem_cons_self d t)
    have ht := ih (fun x hx => h x (List.mem_cons_of_mem d hx))
    rw [beVal_cons]
    calc d * (2 ^ 32) ^ t.length + beVal t
        < d * (2 ^ 32) ^ t.length + (2 ^ 32) ^ t.length := by omega
      _ = (d + 1) * (2 ^ 32) ^ t.length := by ring
      _ ≤ 2 ^ 32 * (2 ^ 32) ^ t.length := Nat.mul_le_mul_right _ (by omega)
      _ = (2 ^ 32) ^ (d :: t).length := by rw [List.length_cons, pow_succ]; ring

theorem beVal_head_le (d : ℕ) (t : List ℕ) :
    d * (2 ^ 32) ^ t.length ≤ beVal (d :: t) := by
  rw [beVal_cons]; omega

theorem beVal_append_singleton (l : List ℕ) (d : ℕ) :
    beVal (l ++ [d]) = beVal l * 2 ^ 32 + d := by
  induction l with
  | nil => simp [beVal]
  | cons x t ih =>
    rw [List.cons_append, beVal_cons, beVal_cons, ih]
    simp only [List.length_append, List.length_cons, List.length_nil]
    rw [pow_succ]
    ring

theorem beVal_reverse (l : List ℕ) : beVal l.reverse = Nat.ofDigits (2 ^ 32) l := by
  induction l with
  | nil => simp [beVal, Nat.ofDigits_nil]
  | cons d t ih =>
    rw [List.reverse_cons, beVal_append_singleton, ih, Nat.ofDigits_cons]
    ring

theorem toBeDigits_beVal (a : Int) : beVal (toBeDigits a) = a.natAbs := by
  unfold toBeDigits
  rw [beVal_reverse, Nat.ofDigits_digits]

theorem toBeDigits_lt (a : Int) : ∀ d ∈ toBeDigits a, d < 2 ^ 32 := by
  intro d hd
  unfold toBeDigits at hd
  rw [List.mem_reverse] at hd
  exact Nat.digits_lt_base (by norm_num) hd

theorem toBeDigits_len_zero (a : Int) : (toBeDigits a).length = 0 ↔ a.natAbs = 0 := by
  unfold toBeDigits
  rw [List.length_reverse, List.length_eq_zero]
  exact Nat.digits_eq_nil_iff_eq_zero

theorem toBeDigits_head_ne_zero (a : Int) (ha : a.natAbs ≠ 0) :
    ∃ h t, toBeDigits a = h :: t ∧ h ≠ 0 := by
  have hne : Nat.digits (2 ^ 32) a.natAbs ≠ [] := Nat.digits_ne_nil_iff_ne_zero.mpr ha
  have hrne : toBeDigits a ≠ [] := by
    unfold toBeDigits; simpa using hne
  obtain ⟨h, t, hht⟩ := List.exists_cons_of_ne_nil hrne
  refine ⟨h, t, hht, fun h0 => Nat.getLast_digit_ne_zero (2 ^ 32) ha ?_⟩
  have h1 : (toBeDigits a).head? = some h := by rw [hht]; rfl
  have h2 : (toBeDigits a).head? = (Nat.digits (2 ^ 32) a.natAbs).getLast? := by
    unfold toBeDigits; exact List.head?_reverse _
  rw [h2, List.getLast?_eq_getLast _ hne] at h1
  injection h1 with h1
  rw [h1, h0]

theorem cmp3_shift (x y u w : Int) (h : x + w = u + y) : cmp3 x y = cmp3 u w := by
  unfold cmp3
  split_ifs <;> omega


theorem cmp3_eq_neg_one {x y : Int} (h : x < y) : cmp3 x y = -1 := by
  unfold cmp3
  rw [if_pos h]

theorem cmp3_eq_one {x y : Int} (h : y < x) : cmp3 x y = 1 := by
  unfold cmp3
  rw [if_neg (by omega), if_neg (by omega)]

theorem compareHalfLoop_spec (as : List ℕ) : ∀ (bs : List ℕ) (carry : Int),
    as.length = bs.length →
    (∀ d ∈ as, d < 2 ^ 32) → (∀ d ∈ bs, d < 2 ^ 32) →
    (carry = 0 ∨ carry = 2 ^ 31 ∨ carry = -(2 ^ 31)) →
    compareHalfLoop as bs carry =
      cmp3 (2 * (beVal as : Int))
        ((if carry = 0 then 0 else 1) * ((2 : Int) ^ 32) ^ as.length + (beVal bs : Int)) := by
  induction as with
  | nil =>
    intro bs carry hlen _ _ _
    have hbs : bs = [] := List.eq_nil_of_length_eq_zero hlen.symm
    subst hbs
    show (if carry = 0 then (0 : Int) else -1) = _
    by_cases h0 : carry = 0
    · rw [if_pos h0, if_pos h0]
      norm_num [beVal, cmp3]
    · rw [if_neg h0, if_neg h0]
      norm_num [beVal, cmp3]
  | cons v arest ih =>
    intro bs carry hlen ha hb hc
    obtain ⟨bv, brest, rfl⟩ : ∃ bv brest, bs = bv :: brest := by
      cases bs with
      | nil => simp at hlen
      | cons x xs => exact ⟨x, xs, rfl⟩
    have hv : v < 2 ^ 32 := ha v (List.mem_cons_self _ _)
    have hbv : bv < 2 ^ 32 := hb bv (List.mem_cons_self _ _)
    have harest : ∀ d ∈ arest, d < 2 ^ 32 := fun d hd => ha d (List.mem_cons_of_mem _ hd)
    have hbrest : ∀ d ∈ brest, d < 2 ^ 32 := fun d hd => hb d (List.mem_cons_of_mem _ hd)
    have hlen2 : arest.length = brest.length := by simpa using hlen
    have hApos : (0 : Int) ≤ (beVal arest : Int) := Int.natCast_nonneg _
    have hBpos : (0 : Int) ≤ (beVal brest : Int) := Int.natCast_nonneg _
    have hAlt : (beVal arest : Int) < ((2 : Int) ^ 32) ^ arest.length := by
      exact_mod_cast beVal_lt arest harest
    have hBlt : (beVal brest : Int) < ((2 : Int) ^ 32) ^ arest.length := by
      rw [hlen2]; exact_mod_cast beVal_lt brest hbrest
    have hPpos : (0 : Int) < ((2 : Int) ^ 32) ^ arest.length := by positivity
    have hcb : (((bv >>> 1 : ℕ) : Int) + carry) % 2 ^ 32
        = ((bv / 2 : ℕ) : Int) + (if carry = 0 then 0 else 1) * 2 ^ 31 := by
      have hsh : (bv >>> 1 : ℕ) = bv / 2 := by
        rw [Nat.shiftRight_eq_div_pow]
      rw [hsh]
      rcases hc with h | h | h <;> subst h <;> norm_num <;> omega
    have hcb01 : (if carry = 0 then (0 : Int) else 1) = 0 ∨
        (if carry = 0 then (0 : Int) else 1) = 1 := by
      by_cases h : carry = 0 <;> simp [h]
    have e1 : (beVal (v :: arest) : Int)
        = (v : Int) * ((2 : Int) ^ 32) ^ arest.length + (beVal arest : Int) := by
      rw [beVal_cons]; push_cast; ring
    have e2 : (beVal (bv :: brest) : Int)
        = (bv : Int) * ((2 : Int) ^ 32) ^ arest.length + (beVal brest : Int) := by
      rw [beVal_cons, hlen2]; push_cast; ring
    have e3 : ((2 : Int) ^ 32) ^ ((v :: arest).length)
        = ((2 : Int) ^ 32) ^ arest.length * (2 : Int) ^ 32 := by
      rw [List.length_cons, pow_succ]
    simp only [compareHalfLoop]
    rw [hcb, e1, e2, e3]
    by_cases hveq : ((v : Int)) = ((bv / 2 : ℕ) : Int) + (if carry = 0 then 0 else 1) * 2 ^ 31
    · rw [if_neg (not_not_intro hveq)]
      have hcarry2 : (((bv &&& 1) <<< 31 : ℕ) : Int) = ((bv % 2 : ℕ) : Int) * 2 ^ 31 := by
        rw [Nat.and_one_is_mod, Nat.shiftLeft_eq]
        push_cast
        ring
      have hm01 : bv % 2 = 0 ∨ bv % 2 = 1 := by omega
      have hcv : (((bv &&& 1) <<< 31 : ℕ) : Int) = 0 ∨
          (((bv &&& 1) <<< 31 : ℕ) : Int) = 2 ^ 31 ∨
          (((bv &&& 1) <<< 31 : ℕ) : Int) = -(2 ^ 31) := by
        rw [hcarry2]
        rcases hm01 with h | h <;> rw [h] <;> norm_num
      rw [ih brest _ hlen2 harest hbrest hcv]
      have hcbr : (if (((bv &&& 1) <<< 31 : ℕ) : Int) = 0 then (0 : Int) else 1)
          = ((bv % 2 : ℕ) : Int) := by
        rw [hcarry2]
        rcases hm01 with h | h <;> rw [h] <;> norm_num
      rw [hcbr]
      have hscalar : (bv : Int) + (if carry = 0 then (0 : Int) else 1) * 2 ^ 32
          = 2 * (v : Int) + ((bv % 2 : ℕ) : Int) := by
        rcases hcb01 with h | h <;> rw [h] at hveq ⊢ <;> omega
      apply cmp3_shift
      linear_combination (((2 : Int) ^ 32) ^ arest.length) * hscalar
    · rw [if_pos hveq]
      by_cases hvlt : ((v : Int)) < ((bv / 2 : ℕ) : Int) + (if carry = 0 then 0 else 1) * 2 ^ 31
      · rw [if_pos hvlt]
        symm
        apply cmp3_eq_neg_one
        have key : 2 * (v : Int) + 2 ≤ (bv : Int) + (if carry = 0 then (0 : Int) else 1) * 2 ^ 32 := by
          rcases hcb01 with h | h <;> rw [h] at hvlt ⊢ <;> omega
        nlinarith [mul_le_mul_of_nonneg_right key hPpos.le, hAlt, hBpos, hApos]
      · rw [if_neg hvlt]
        symm
        apply cmp3_eq_one
        have key : (bv : Int) + (if carry = 0 then (0 : Int) else 1) * 2 ^ 32 + 1 ≤ 2 * (v : Int) := by
          rcases hcb01 with h | h <;> rw [h] at hveq hvlt ⊢ <;> omega
        nlinarith [mul_le_mul_of_nonneg_right key hPpos.le, hBlt, hApos, hBpos]


/-- Claim C5: for all non-negative big integers `a` (the remainder) and `b`
(the divisor), `compare_half(a, b)` returns `-1` when `2 * a < b`, `0` when
`2 * a = b`, and `1` when `2 * a > b` — it classifies `a` against `b / 2`. -/
theorem compare_half_classifies (a b : Int) (ha : 0 ≤ a) (hb : 0 ≤ b) :
    compare_half a b = if 2 * a < b then -1 else if 2 * a = b then 0 else 1 := by
  have hAc : ((a.natAbs : Int)) = a := Int.natAbs_of_nonneg ha
  have hBc : ((b.natAbs : Int)) = b := Int.natAbs_of_nonneg hb
  have hvalA : beVal (toBeDigits a) = a.natAbs := toBeDigits_beVal a
  have hvalB : beVal (toBeDigits b) = b.natAbs := toBeDigits_beVal b
  have hdA := toBeDigits_lt a
  have hdB := toBeDigits_lt b
  have hupA : a.natAbs < (2 ^ 32) ^ (toBeDigits a).length := by
    rw [← hvalA]; exact beVal_lt _ hdA
  have hupB : b.natAbs < (2 ^ 32) ^ (toBeDigits b).length := by
    rw [← hvalB]; exact beVal_lt _ hdB
  unfold compare_half
  by_cases h1 : (toBeDigits a).length ≤ 0
  · rw [if_pos h1]
    have hA0 : a.natAbs = 0 := (toBeDigits_len_zero a).mp (by omega)
    by_cases h2 : (toBeDigits b).length ≤ 0
    · rw [if_pos h2]
      have hB0 : b.natAbs = 0 := (toBeDigits_len_zero b).mp (by omega)
      split_ifs <;> omega
    · rw [if_neg h2]
      have hB0 : b.natAbs ≠ 0 := by
        intro h
        exact h2 (le_of_eq ((toBeDigits_len_zero b).mpr h))
      split_ifs <;> omega
  · rw [if_neg h1]
    have hA0 : a.natAbs ≠ 0 := by
      intro h
      exact h1 (le_of_eq ((toBeDigits_len_zero a).mpr h))
    obtain ⟨ah, atl, hat, hah⟩ := toBeDigits_head_ne_zero a hA0
    have hlenat : (toBeDigits a).length = atl.length + 1 := by rw [hat]; rfl
    have hlowA : (2 ^ 32) ^ atl.length ≤ a.natAbs := by
      rw [← hvalA, hat]
      calc (2 ^ 32) ^ atl.length = 1 * (2 ^ 32) ^ atl.length := (one_mul _).symm
        _ ≤ ah * (2 ^ 32) ^ atl.length := Nat.mul_le_mul_right _ (by omega)
        _ ≤ beVal (ah :: atl) := beVal_head_le _ _
    have hpos1 : 1 ≤ (2 ^ 32 : ℕ) ^ atl.length := Nat.one_le_pow _ _ (by norm_num)
    by_cases h2 : (toBeDigits a).length > (toBeDigits b).length
    · rw [if_pos h2]
      have hple : (2 ^ 32 : ℕ) ^ (toBeDigits b).length ≤ (2 ^ 32) ^ atl.length :=
        Nat.pow_le_pow_right (by norm_num) (by omega)
      split_ifs <;> omega
    · rw [if_neg h2]
      by_cases h3 : (toBeDigits a).length < (toBeDigits b).length - 1
      · rw [if_pos h3]
        have hB0 : b.natAbs ≠ 0 := by
          intro h
          have := (toBeDigits_len_zero b).mpr h
          omega
        obtain ⟨bh, bt, hbt, hbh⟩ := toBeDigits_head_ne_zero b hB0
        have hlenbt : (toBeDigits b).length = bt.length + 1 := by rw [hbt]; rfl
        have hlowB : (2 ^ 32) ^ bt.length ≤ b.natAbs := by
          rw [← hvalB, hbt]
          calc (2 ^ 32) ^ bt.length = 1 * (2 ^ 32) ^ bt.length := (one_mul _).symm
            _ ≤ bh * (2 ^ 32) ^ bt.length := Nat.mul_le_mul_right _ (by omega)
            _ ≤ beVal (bh :: bt) := beVal_head_le _ _
        have hp1 : (2 ^ 32 : ℕ) ^ ((toBeDigits a).length + 1) ≤ (2 ^ 32) ^ bt.length :=
          Nat.pow_le_pow_right (by norm_num) (by omega)
        have hp2 : 2 * (2 ^ 32 : ℕ) ^ (toBeDigits a).length
            ≤ (2 ^ 32 : ℕ) ^ ((toBeDigits a).length + 1) := by
          rw [pow_succ]
          calc 2 * (2 ^ 32 : ℕ) ^ (toBeDigits a).length
              = (2 ^ 32 : ℕ) ^ (toBeDigits a).length * 2 := by ring
            _ ≤ (2 ^ 32 : ℕ) ^ (toBeDigits a).length * 2 ^ 32 :=
              Nat.mul_le_mul_left _ (by norm_num)
        split_ifs <;> omega
      · rw [if_neg h3]
        by_cases h4 : (toBeDigits a).length ≠ (toBeDigits b).length
        · rw [if_pos h4]
          have hlb : (toBeDigits b).length = (toBeDigits a).length + 1 := by omega
          have hB0 : b.natAbs ≠ 0 := by
            intro h
            have := (toBeDigits_len_zero b).mpr h
            omega
          obtain ⟨bh, bt, hbt, hbh⟩ := toBeDigits_head_ne_zero b hB0
          have hlenbt : (toBeDigits b).length = bt.length + 1 := by rw [hbt]; rfl
          have hdbt : ∀ d ∈ bt, d < 2 ^ 32 := fun d hd =>
            hdB d (by rw [hbt]; exact List.mem_cons_of_mem _ hd)
          have hhead : (toBeDigits b).headD 0 = bh := by rw [hbt]; rfl
          by_cases h5 : (toBeDigits b).headD 0 = 1
          · rw [if_pos h5]
            rw [hhead] at h5
            have hdrop : (toBeDigits b).drop 1 = bt := by rw [hbt]; rfl
            rw [hdrop]
            have hlent : (toBeDigits a).length = bt.length := by omega
            have hloop := compareHalfLoop_spec (toBeDigits a) bt (-(2 ^ 31)) hlent hdA hdbt
              (Or.inr (Or.inr rfl))
            rw [hloop, if_neg (by norm_num : ¬(-(2 ^ 31) : Int) = 0), hlent]
            have hbsum : b.natAbs = (2 ^ 32) ^ bt.length + beVal bt := by
              rw [← hvalB, hbt, beVal_cons, h5, one_mul]
            have hc1 : (beVal (toBeDigits a) : Int) = a := by rw [hvalA, hAc]
            have hc2 : ((2 : Int) ^ 32) ^ bt.length + (beVal bt : Int) = b := by
              rw [← hBc, hbsum]; push_cast; ring
            rw [hc1, one_mul, hc2]
            rfl
          · rw [if_neg h5]
            rw [hhead] at h5
            have hlowB2 : 2 * (2 ^ 32) ^ bt.length ≤ b.natAbs := by
              rw [← hvalB, hbt]
              calc 2 * (2 ^ 32) ^ bt.length ≤ bh * (2 ^ 32) ^ bt.length :=
                  Nat.mul_le_mul_right _ (by omega)
                _ ≤ beVal (bh :: bt) := beVal_head_le _ _
            have hlent : (toBeDigits a).length = bt.length := by omega
            rw [hlent] at hupA
            split_ifs <;> omega
        · rw [if_neg h4]
          have hleq : (toBeDigits a).length = (toBeDigits b).length := by omega
          have hloop := compareHalfLoop_spec (toBeDigits a) (toBeDigits b) 0 hleq hdA hdB
            (Or.inl rfl)
          rw [hloop, if_pos rfl, zero_mul, zero_add]
          have hc1 : (beVal (toBeDigits a) : Int) = a := by rw [hvalA, hAc]
          have hc2 : (beVal (toBeDigits b) : Int) = b := by rw [hvalB, hBc]
          rw [hc1, hc2]
          rfl

/-- Witness for C5: `compare_half(3, 5) = 1` since `2 * 3 > 5`. -/
theorem compare_half_classifies_witness : compare_half 3 5 = 1 := by
  have h := compare_half_classifies 3 5 (by norm_num) (by norm_num)
  norm_num at h
  exact h

end BigDecimalMath
